import Mathlib

/-!
Shallow embedding of the trade-recommendation engine of
`nickmilikich/fantasy-trade-engine` (files `src/utils/scoring.py` and
`src/utils/services.py`), together with theorems settling the frozen
claims about it.

Modelling conventions:
* Python floats are modelled as exact rationals (`ℚ`); the claims under
  study are about comparisons, sums and averages, not about rounding.
* A missing `pts_ppr` value (a pandas `NaN`, detected by `pd.isna`) is
  modelled as `none : Option ℚ`.
* A Python function call that raises an exception (here: the
  `ZeroDivisionError` in `Projections.get_max_possible_score` when the
  final record pool has no weeks, and the `KeyError` raised by
  `pd.DataFrame([])["Gives"]` in `get_recommended_trades`) is modelled
  by the value `none` of an `Option` result type.
* `TEAM_COMPOSITION["team_composition"]` is loaded from a YAML file
  (`src/config/team_composition.yml`) that is configuration data of the
  deployment, not source code; following the spec's contract
  (`score(player_ids, all_projections, slot_config)`), the ordered
  slot configuration is a parameter `comp : List (String × Nat)` here,
  iterated in list order exactly as Python iterates `dict.items()`.
* Python `set` iteration order is unspecified (string hashing is even
  randomized per process); the embedding fixes the deterministic
  first-occurrence order (`pySet`).  For week sets the computed score is
  insensitive to the enumeration order because slot filling in one week
  only ever removes records of that same week (proved below as the
  `fillWeek` locality lemmas).
-/

/-- One projection record, as built by `Projections.__init__`
(`src/utils/scoring.py`): a dictionary with keys
`player_id`, `position`, `week`, `pts_ppr`. -/
structure Projection where
  player_id : String
  position : String
  week : Int
  pts_ppr : Option ℚ
deriving DecidableEq, Repr

/-- The ordered roster-slot configuration
(`TEAM_COMPOSITION["team_composition"].items()`): slot name and
required count, in declaration order. -/
abbrev SlotConfig := List (String × Nat)

/-- `position_map.get(position, [position])` of `get_max_possible_score`:
`flex` and `superflex` expand to their base-position lists, every other
slot name maps to the singleton of itself. -/
def position_map_get (position : String) : List String :=
  if position = "flex" then ["RB", "WR", "TE"]
  else if position = "superflex" then ["RB", "WR", "TE", "QB"]
  else [position]

/-- The key used by `max(possible_projections, key=lambda x: x["pts_ppr"])`.
Every candidate has already been filtered to a non-missing `pts_ppr`,
so the default value `0` of `getD` is never consulted. -/
def pyKey (p : Projection) : ℚ := p.pts_ppr.getD 0

/-- Python's builtin `max` over a non-empty list with a numeric key:
scans left to right and replaces the current best only on a strictly
greater key, hence returns the first element attaining the maximum. -/
def pyMaxBy : Projection → List Projection → Projection
  | best, [] => best
  | best, p :: rest => pyMaxBy (if pyKey best < pyKey p then p else best) rest

/-- The records eligible for one slot draw in `get_max_possible_score`
(the `possible_projections` list comprehension): remaining records of
this week whose position is one of the slot's formatted positions and
whose points are not missing (`not pd.isna(...)`). -/
def possibleProjections (week : Int) (fmt : List String)
    (pool : List Projection) : List Projection :=
  pool.filter fun p =>
    p.week = week ∧ p.position ∈ fmt ∧ p.pts_ppr.isSome

/-- One iteration of the `for _ in range(quantity)` body of
`get_max_possible_score`: if any eligible record remains, add the
points of the maximal one to the running score and drop every record
sharing its `player_id` and this `week`; otherwise leave the state
unchanged. The state is (running score, remaining record pool). -/
def fillSlot (week : Int) (fmt : List String) (st : ℚ × List Projection) :
    ℚ × List Projection :=
  match possibleProjections week fmt st.2 with
  | [] => st
  | q :: qs =>
    let sel := pyMaxBy q qs
    (st.1 + pyKey sel,
      st.2.filter fun p => p.player_id ≠ sel.player_id ∨ p.week ≠ week)

/-- The `for _ in range(quantity)` loop for one slot name. -/
def fillQuantity (week : Int) (fmt : List String) :
    Nat → ℚ × List Projection → ℚ × List Projection
  | 0, st => st
  | n + 1, st => fillQuantity week fmt n (fillSlot week fmt st)

/-- The `for position, quantity in TEAM_COMPOSITION[...].items()` loop
body for one week of `get_max_possible_score`. -/
def fillWeek (comp : SlotConfig) (week : Int) (st : ℚ × List Projection) :
    ℚ × List Projection :=
  comp.foldl (fun st pq => fillQuantity week (position_map_get pq.1) pq.2 st) st

/-- First-occurrence deduplication: the model of iterating a Python
`set` built from a list (one fixed enumeration of its elements). -/
def pySet {α : Type} [DecidableEq α] (xs : List α) : List α :=
  xs.foldl (fun acc x => if x ∈ acc then acc else acc ++ [x]) []

/-- The distinct weeks of a record pool,
`set([projection["week"] for projection in projections])`. -/
def weeksOf (ps : List Projection) : List Int :=
  pySet (ps.map (·.week))

/-- `Projections.get_max_possible_score` (`src/utils/scoring.py`):
filter the table to the given players, greedily fill the configured
slots week by week (the record pool is shared across the week loop, as
in the Python code), then divide the accumulated score by the number of
distinct weeks left in the pool. A `none` result models the
`ZeroDivisionError` raised when that number is zero. -/
def get_max_possible_score (table : List Projection) (comp : SlotConfig)
    (player_ids : List String) : Option ℚ :=
  let projections := table.filter fun p => p.player_id ∈ player_ids
  let final :=
    (weeksOf projections).foldl (fun st w => fillWeek comp w st)
      ((0 : ℚ), projections)
  let d := (weeksOf final.2).length
  if d = 0 then none else some (final.1 / (d : ℚ))

/-!
## The trade search (`src/utils/services.py`)
-/

/-- One row of the merged projections table consumed by the service
layer (`player_projections`): columns `user_id`, `player_id`,
`position`, `week`, `pts_ppr`. -/
structure Row where
  user_id : String
  player_id : String
  position : String
  week : Int
  pts_ppr : Option ℚ
deriving DecidableEq, Repr

/-- An accepted trade, the dictionary appended to `accepted_trades` in
`_get_recommended_trades`: keys `"With"`, `"Gives"`, `"Receives"`,
`"User Projection"`, `"Other Projection"`.  `Gives`/`Receives` are the
ordered tuples produced by `itertools.combinations`. -/
structure AcceptedTrade where
  With : String
  Gives : List String
  Receives : List String
  userProjection : ℚ
  otherProjection : ℚ
deriving DecidableEq, Repr

/-- `Projections(player_ids=..., positions=..., weeks=..., pts_ppr=...)`:
the constructor zips the four equal-length columns of the table row by
row. -/
def projectionsOfRows (rows : List Row) : List Projection :=
  rows.map fun r => ⟨r.player_id, r.position, r.week, r.pts_ppr⟩

/-- `set(player_projections[player_projections["user_id"] == user_id]["player_id"])`. -/
def userPlayersOf (rows : List Row) (user_id : String) : List String :=
  pySet ((rows.filter fun r => r.user_id = user_id).map (·.player_id))

/-- The keys of the `other_players` dict: `groupby("user_id")` sorts the
group keys ascending, so the other users are visited in ascending
`user_id` order. -/
def insertAsc (x : String) : List String → List String
  | [] => [x]
  | y :: ys => if x ≤ y then x :: y :: ys else y :: insertAsc x ys

/-- Ascending stable insertion sort on strings (the order in which
pandas `groupby` emits its group keys). -/
def sortAsc (l : List String) : List String := l.foldr insertAsc []

/-- The other users appearing in the table, in the order of the
`other_players` dict built from `groupby("user_id")`. -/
def otherUsersOf (rows : List Row) (user_id : String) : List String :=
  sortAsc (pySet ((rows.filter fun r => r.user_id ≠ user_id).map (·.user_id)))

/-- The value of the `other_players` dict for one user:
`agg({"player_id": set})` over that user's rows. -/
def rosterOf (rows : List Row) (u : String) : List String :=
  pySet ((rows.filter fun r => r.user_id = u).map (·.player_id))

/-- `itertools.combinations(xs, k)`: all k-element subsequences of the
iterable, tuples emitted in lexicographic order of member indices. -/
def combinations {α : Type} : Nat → List α → List (List α)
  | 0, _ => [[]]
  | _ + 1, [] => []
  | k + 1, x :: xs => (combinations k xs).map (x :: ·) ++ combinations (k + 1) xs

/-- `[combo for group_size in range(1, max_group_size + 1) for combo in
itertools.combinations(players, group_size)]`: Python's `range` is
empty when `max_group_size ≤ 0`. -/
def allGroups (players : List String) (max_group_size : Int) : List (List String) :=
  (List.range max_group_size.toNat).flatMap fun k => combinations (k + 1) players

/-- Python set difference `a - b` (only membership is ever observed
downstream, the scorer filters by `in`). -/
def pyDiff (a b : List String) : List String := a.filter (· ∉ b)

/-- Python set union `a | b` (only membership is ever observed
downstream). -/
def pyUnion (a b : List String) : List String := a ++ b.filter (· ∉ a)

/-- `_get_recommended_trades` (`src/utils/services.py`): enumerate every
`gives` group of the user's roster (sizes `1..max_group_size`), every
other user, and every `receives` group of that user's roster; score the
two proposed rosters and append the trade record iff
`proposed_user_score > user_base_score` and
`proposed_other_score >= other_base_score`.  The accumulating list
mirrors `accepted_trades.append(...)`; a `none` result models an
uncaught `ZeroDivisionError` escaping from one of the scoring calls. -/
def _get_recommended_trades (rows : List Row) (comp : SlotConfig)
    (max_group_size : Int) (user_id : String) : Option (List AcceptedTrade) := do
  let all_projections := projectionsOfRows rows
  let user_players := userPlayersOf rows user_id
  let user_base_score ← get_max_possible_score all_projections comp user_players
  (allGroups user_players max_group_size).foldlM (fun acc user_player_group =>
    (otherUsersOf rows user_id).foldlM (fun acc other_user => do
      let other_player_ids := rosterOf rows other_user
      let other_base_score ← get_max_possible_score all_projections comp other_player_ids
      (allGroups other_player_ids max_group_size).foldlM (fun acc other_player_group => do
        let proposed_user_players :=
          pyUnion (pyDiff user_players user_player_group) other_player_group
        let proposed_other_players :=
          pyUnion (pyDiff other_player_ids other_player_group) user_player_group
        let proposed_user_score ←
          get_max_possible_score all_projections comp proposed_user_players
        let proposed_other_score ←
          get_max_possible_score all_projections comp proposed_other_players
        if user_base_score < proposed_user_score ∧ other_base_score ≤ proposed_other_score then
          pure (acc ++ [⟨other_user, user_player_group, other_player_group,
            proposed_user_score, proposed_other_score⟩])
        else
          pure acc) acc) acc) []

/-- Stable descending insertion: place `t` before the first record whose
`User Projection` is at most `t`'s. -/
def insertDesc (t : AcceptedTrade) : List AcceptedTrade → List AcceptedTrade
  | [] => [t]
  | u :: us => if u.userProjection ≤ t.userProjection then t :: u :: us
               else u :: insertDesc t us

/-- Model of `sort_values("User Projection", ascending=False)`: pandas
reverses the column and the index, runs numpy `argsort`, and reverses
the resulting indexer, which for a stable underlying `argsort` is a
stable descending sort keeping ties in row order.  numpy's default
`kind="quicksort"` argsort is only guaranteed stable in its
insertion-sort regime (at most 16 rows); this model is exact there. -/
def sort_values_desc (l : List AcceptedTrade) : List AcceptedTrade :=
  l.foldr insertDesc []

/-- `get_recommended_trades` (`src/utils/services.py`), its pure core:
the optional position / other-user pre-filters, the helper search, the
conversion of the result to a data frame and the final sort.  The
display-name formatting of the `Gives` / `Receives` / `With` columns is
a lookup against the external `Mapping` collaborator and changes no row
and no order, so the trades keep player ids here.  When the helper
returns no trades, `pd.DataFrame([])` has no `"Gives"` column and the
very first formatting statement raises `KeyError` — modelled as
`none`. -/
def get_recommended_trades (rows : List Row) (comp : SlotConfig)
    (user_id : String) (max_group_size : Int)
    (positions : Option (List String)) (other_users : Option (List String)) :
    Option (List AcceptedTrade) := do
  let rows₁ := match positions with
    | none => rows
    | some ps => rows.filter fun r => r.position ∈ ps
  let rows₂ := match other_users with
    | none => rows₁
    | some ous => rows₁.filter fun r => r.user_id = user_id ∨ r.user_id ∈ ous
  let recommended_trades ← _get_recommended_trades rows₂ comp max_group_size user_id
  match recommended_trades with
  | [] => none
  | t :: ts => some (sort_values_desc (t :: ts))

/-!
## Derived definitions used by the proofs

`slotSel` names the record chosen by one slot draw; `weekContribution`
and `weekLeftover` run one week's slot filling on that week's records
alone; `spec_score` restates the scorer per the spec's wording (and
`spec_score_preDiv` per the reading claim C3 denies); `genList`,
`tryTrade`, `perOther` and `perGroup` give the trade search its
compositional form; the remaining definitions are the concrete inputs
of the witnesses and counterexamples.
-/

/-- The record chosen by one slot draw, when any candidate is eligible:
`max(possible_projections, key=lambda x: x["pts_ppr"])`. -/
def slotSel (week : Int) (fmt : List String) (pool : List Projection) :
    Option Projection :=
  match possibleProjections week fmt pool with
  | [] => none
  | q :: qs => some (pyMaxBy q qs)

/-- The total a single week contributes to the accumulated score,
computed on that week's records alone. -/
def weekContribution (comp : SlotConfig) (w : Int) (pool : List Projection) : ℚ :=
  (fillWeek comp w (0, pool.filter fun p => p.week = w)).1

/-- The records of one week surviving that week's slot filling,
computed on that week's records alone. -/
def weekLeftover (comp : SlotConfig) (w : Int) (pool : List Projection) : List Projection :=
  (fillWeek comp w (0, pool.filter fun p => p.week = w)).2

/-- Modelled from the spec (§4.1 steps 3–5): each week's total is
computed independently on that week's records, the totals are summed,
and the sum is divided by the number of distinct weeks still having a
record after all removals across all weeks. -/
def spec_score (table : List Projection) (comp : SlotConfig)
    (player_ids : List String) : Option ℚ :=
  let filtered := table.filter fun p => p.player_id ∈ player_ids
  let ws := weeksOf filtered
  let total := (ws.map fun w => weekContribution comp w filtered).sum
  let d := (ws.filter fun w => ¬ weekLeftover comp w filtered = []).length
  if d = 0 then none else some (total / (d : ℚ))

/-- Modelled from the reading that claim C3 denies: the same per-week
totals divided by the number of distinct weeks present in the input
before any slot filling. -/
def spec_score_preDiv (table : List Projection) (comp : SlotConfig)
    (player_ids : List String) : Option ℚ :=
  let filtered := table.filter fun p => p.player_id ∈ player_ids
  let ws := weeksOf filtered
  let total := (ws.map fun w => weekContribution comp w filtered).sum
  let d := ws.length
  if d = 0 then none else some (total / (d : ℚ))

/-- The concrete two-record table of the C10 witness and its filtered
pool for players A and B: A has one week-1 record with points, B's only
record (week 2) has missing points. -/
def c10Table : List Projection :=
  [⟨"A", "RB", 1, some 10⟩, ⟨"B", "WR", 2, none⟩]

/-- The C10 witness table filtered to its two players. -/
def c10Filtered : List Projection :=
  c10Table.filter fun p => p.player_id ∈ ["A", "B"]

/-- Sequentially run `aux` over a list and concatenate the produced
fragments; `none` as soon as one call fails. -/
def genList {α τ : Type} (aux : α → Option (List τ)) : List α → Option (List τ)
  | [] => some []
  | x :: xs => do
    let g ← aux x
    let rest ← genList aux xs
    pure (g ++ rest)

/-- One candidate trade of the search: score the two proposed rosters
and produce the accepted-trade record iff the improvement criterion
holds. -/
def tryTrade (all : List Projection) (comp : SlotConfig) (U roster : List String)
    (b ob : ℚ) (ou : String) (g og : List String) : Option (List AcceptedTrade) := do
  let pu ← get_max_possible_score all comp (pyUnion (pyDiff U g) og)
  let po ← get_max_possible_score all comp (pyUnion (pyDiff roster og) g)
  pure (if b < pu ∧ ob ≤ po then [⟨ou, g, og, pu, po⟩] else [])

/-- The trades (in discovery order) produced for one `gives` group of
the user against one other user: the partner's base score, then every
`receives` group of that partner. -/
def perOther (rows : List Row) (comp : SlotConfig) (mgs : Int) (uid : String)
    (b : ℚ) (g : List String) (ou : String) : Option (List AcceptedTrade) := do
  let ob ← get_max_possible_score (projectionsOfRows rows) comp (rosterOf rows ou)
  genList
    (tryTrade (projectionsOfRows rows) comp (userPlayersOf rows uid) (rosterOf rows ou)
      b ob ou g)
    (allGroups (rosterOf rows ou) mgs)

/-- The trades (in discovery order) produced for one `gives` group of
the user, across all other users. -/
def perGroup (rows : List Row) (comp : SlotConfig) (mgs : Int) (uid : String)
    (b : ℚ) (g : List String) : Option (List AcceptedTrade) :=
  genList (perOther rows comp mgs uid b g) (otherUsersOf rows uid)

/-- Concrete league for the C1 witness: user "u" rosters only player A
(position K, matching no slot); partner "p" rosters B and C.  Giving A
for C strictly improves the user (0 → 4) and leaves the partner's
score unchanged (5/2), so exactly one trade is accepted. -/
def c1Rows : List Row :=
  [⟨"u", "A", "K", 1, some 0⟩,
   ⟨"p", "B", "RB", 1, some 5⟩, ⟨"p", "B", "WR", 2, none⟩,
   ⟨"p", "C", "RB", 1, some 4⟩, ⟨"p", "C", "WR", 2, none⟩]

/-- Concrete one-user league (player A's position K matches no slot):
the search has no trade partners, and scoring A's roster never empties
the pool, so every run below completes. -/
def soloRows : List Row := [⟨"u", "A", "K", 1, some 3⟩]

/-- Concrete league for the C8 counterexample: user "u" rosters A and
B, partner "p" rosters Z and W.  Every player except Z also has a
missing-points week-2 record that survives all removals, so every
roster evaluated by the size-1 search keeps a record and scores
normally; but player Z's only record is consumed when the size-2
search scores the proposed roster {Z} (user gives A and B, receives
Z), and the scorer divides by zero. -/
def exRows : List Row :=
  [⟨"u", "A", "RB", 1, some 3⟩, ⟨"u", "A", "WR", 2, none⟩,
   ⟨"u", "B", "RB", 1, some 2⟩, ⟨"u", "B", "WR", 2, none⟩,
   ⟨"p", "Z", "RB", 1, some 5⟩,
   ⟨"p", "W", "RB", 1, some 4⟩, ⟨"p", "W", "WR", 2, none⟩]

/-- `exRows` with a missing-points week-2 safety record for Z as well:
every score call of the size-2 search now completes. -/
def safeRows : List Row := exRows ++ [⟨"p", "Z", "WR", 2, none⟩]

/-!
## Basic lemmas about the embedding's building blocks
-/

theorem pySet_go_mem {α : Type} [DecidableEq α] (xs : List α) (acc : List α) (a : α) :
    a ∈ xs.foldl (fun acc x => if x ∈ acc then acc else acc ++ [x]) acc ↔
      a ∈ acc ∨ a ∈ xs := by
  induction xs generalizing acc with
  | nil => simp
  | cons x xs ih =>
    simp only [List.foldl_cons, ih]
    by_cases hx : x ∈ acc
    · simp only [if_pos hx, List.mem_cons]
      constructor
      · rintro (h | h)
        · exact Or.inl h
        · exact Or.inr (Or.inr h)
      · rintro (h | h)
        · exact Or.inl h
        · rcases h with rfl | h
          · exact Or.inl hx
          · exact Or.inr h
    · simp only [if_neg hx, List.mem_append, List.mem_singleton, List.mem_cons]
      tauto

theorem pySet_mem {α : Type} [DecidableEq α] (xs : List α) (a : α) :
    a ∈ pySet xs ↔ a ∈ xs := by
  simpa using pySet_go_mem xs [] a

theorem pySet_go_nodup {α : Type} [DecidableEq α] (xs : List α) (acc : List α)
    (h : acc.Nodup) :
    (xs.foldl (fun acc x => if x ∈ acc then acc else acc ++ [x]) acc).Nodup := by
  induction xs generalizing acc with
  | nil => exact h
  | cons x xs ih =>
    simp only [List.foldl_cons]
    by_cases hx : x ∈ acc
    · simpa [hx] using ih acc h
    · refine ih _ ?_
      simpa [hx, List.nodup_append, h]

theorem pySet_nodup {α : Type} [DecidableEq α] (xs : List α) : (pySet xs).Nodup :=
  pySet_go_nodup xs [] List.nodup_nil

theorem pySet_toFinset {α : Type} [DecidableEq α] (xs : List α) :
    (pySet xs).toFinset = xs.toFinset := by
  ext a; simp [pySet_mem]

theorem pySet_length {α : Type} [DecidableEq α] (xs : List α) :
    (pySet xs).length = xs.toFinset.card := by
  rw [← pySet_toFinset, List.card_toFinset, List.Nodup.dedup (pySet_nodup xs)]

theorem weeksOf_mem (ps : List Projection) (w : Int) :
    w ∈ weeksOf ps ↔ ∃ p ∈ ps, p.week = w := by
  simp [weeksOf, pySet_mem, eq_comm]

theorem weeksOf_nodup (ps : List Projection) : (weeksOf ps).Nodup :=
  pySet_nodup _

theorem weeksOf_length (ps : List Projection) :
    (weeksOf ps).length = (ps.map (·.week)).toFinset.card :=
  pySet_length _

theorem pyMaxBy_mem (b : Projection) (l : List Projection) :
    pyMaxBy b l ∈ b :: l := by
  induction l generalizing b with
  | nil => simp [pyMaxBy]
  | cons p rest ih =>
    rw [pyMaxBy]
    have hc : (if pyKey b < pyKey p then p else b) = p ∨
        (if pyKey b < pyKey p then p else b) = b := by
      by_cases hlt : pyKey b < pyKey p <;> simp [hlt]
    rcases List.mem_cons.1 (ih (if pyKey b < pyKey p then p else b)) with h | h
    · rcases hc with hc | hc <;> rw [h, hc] <;> simp
    · simp [h]

theorem le_pyMaxBy (b : Projection) (l : List Projection) :
    ∀ x ∈ b :: l, pyKey x ≤ pyKey (pyMaxBy b l) := by
  induction l generalizing b with
  | nil => intro x hx; simp at hx; simp [pyMaxBy, hx]
  | cons p rest ih =>
    intro x hx
    rw [pyMaxBy]
    have hb : pyKey b ≤ pyKey (if pyKey b < pyKey p then p else b) := by
      by_cases hlt : pyKey b < pyKey p <;> simp [hlt]; exact le_of_lt hlt
    have hp : pyKey p ≤ pyKey (if pyKey b < pyKey p then p else b) := by
      by_cases hlt : pyKey b < pyKey p <;> simp [hlt]; exact le_of_not_lt hlt
    rcases List.mem_cons.1 hx with rfl | hx
    · exact le_trans hb (ih _ _ (List.mem_cons_self _ _))
    · rcases List.mem_cons.1 hx with rfl | hx
      · exact le_trans hp (ih _ _ (List.mem_cons_self _ _))
      · exact ih _ _ (List.mem_cons_of_mem _ hx)


theorem fillSlot_eq_slotSel (week : Int) (fmt : List String) (st : ℚ × List Projection) :
    fillSlot week fmt st =
      match slotSel week fmt st.2 with
      | none => st
      | some sel =>
        (st.1 + pyKey sel,
          st.2.filter fun p => p.player_id ≠ sel.player_id ∨ p.week ≠ week) := by
  unfold fillSlot slotSel
  cases possibleProjections week fmt st.2 <;> rfl

theorem mem_possibleProjections (week : Int) (fmt : List String)
    (pool : List Projection) (q : Projection) :
    q ∈ possibleProjections week fmt pool ↔
      q ∈ pool ∧ q.week = week ∧ q.position ∈ fmt ∧ q.pts_ppr.isSome := by
  simp [possibleProjections, List.mem_filter]

theorem slotSel_mem_possible (week : Int) (fmt : List String)
    (pool : List Projection) (r : Projection) (h : slotSel week fmt pool = some r) :
    r ∈ possibleProjections week fmt pool := by
  unfold slotSel at h
  rcases hp : possibleProjections week fmt pool with - | ⟨q, qs⟩
  · rw [hp] at h; cases h
  · rw [hp] at h
    have := pyMaxBy_mem q qs
    simp only [Option.some.injEq] at h
    rw [← h] at *
    simpa using this

theorem fillSlot_sublist (week : Int) (fmt : List String) (st : ℚ × List Projection) :
    (fillSlot week fmt st).2.Sublist st.2 := by
  rw [fillSlot_eq_slotSel]
  cases slotSel week fmt st.2
  · exact List.Sublist.refl _
  · exact List.filter_sublist _

/-- C4: in every slot-filling step of the scorer, the selected record is
one with maximum points among the remaining records of that week whose
position is eligible for the slot and whose points are not missing
(records with missing points are never candidates), and after selection
every record of the selected player for that week is removed — so no
pool reachable by further slot draws of this week (every such pool is a
sublist of the updated one) can select the same player again. -/
theorem C4_slot_step (week : Int) (fmt : List String) (s : ℚ) (pool : List Projection) :
    (possibleProjections week fmt pool = [] → fillSlot week fmt (s, pool) = (s, pool)) ∧
    (∀ q ∈ possibleProjections week fmt pool,
      q ∈ pool ∧ q.week = week ∧ q.position ∈ fmt ∧ q.pts_ppr.isSome) ∧
    (possibleProjections week fmt pool ≠ [] →
      ∃ sel, slotSel week fmt pool = some sel ∧
        sel ∈ possibleProjections week fmt pool ∧
        (∀ q ∈ possibleProjections week fmt pool, pyKey q ≤ pyKey sel) ∧
        fillSlot week fmt (s, pool) =
          (s + pyKey sel,
            pool.filter fun p => p.player_id ≠ sel.player_id ∨ p.week ≠ week)) ∧
    (fillSlot week fmt (s, pool)).2.Sublist pool ∧
    (∀ sel, slotSel week fmt pool = some sel →
      ∀ fmt2 pool2 sel2, pool2.Sublist (fillSlot week fmt (s, pool)).2 →
        slotSel week fmt2 pool2 = some sel2 → sel2.player_id ≠ sel.player_id) := by
  refine ⟨?_, ?_, ?_, ?_, ?_⟩
  · intro h; unfold fillSlot; rw [h]
  · intro q hq; exact (mem_possibleProjections week fmt pool q).1 hq
  · intro h
    rcases hp : possibleProjections week fmt pool with - | ⟨q, qs⟩
    · exact absurd hp h
    · refine ⟨pyMaxBy q qs, ?_, ?_, ?_, ?_⟩
      · unfold slotSel; rw [hp]
      · simpa using pyMaxBy_mem q qs
      · intro x hx; exact le_pyMaxBy q qs x hx
      · unfold fillSlot; rw [hp]
  · exact fillSlot_sublist week fmt (s, pool)
  · intro sel hsel fmt2 pool2 sel2 hsub hsel2 heq
    have h2 := slotSel_mem_possible week fmt2 pool2 sel2 hsel2
    rw [mem_possibleProjections] at h2
    have hmem : sel2 ∈ (fillSlot week fmt (s, pool)).2 := hsub.mem h2.1
    rw [fillSlot_eq_slotSel] at hmem
    simp only [hsel] at hmem
    rw [List.mem_filter] at hmem
    have := hmem.2
    simp only [decide_eq_true_eq] at this
    rcases this with h | h
    · exact h heq
    · exact h h2.2.1

/-- Witness for `C4_slot_step` at a concrete pool: a dual-eligible
player "A" (two tagged records, maximal points) is selected for the RB
slot and both of A's records for the week are removed. -/
theorem C4_slot_step_witness :
    possibleProjections 1 ["RB"]
        [⟨"A", "RB", 1, some 5⟩, ⟨"A", "WR", 1, some 5⟩, ⟨"B", "RB", 1, some 3⟩] ≠ [] ∧
    ∃ sel, slotSel 1 ["RB"]
        [⟨"A", "RB", 1, some 5⟩, ⟨"A", "WR", 1, some 5⟩, ⟨"B", "RB", 1, some 3⟩] = some sel ∧
      sel ∈ possibleProjections 1 ["RB"]
        [⟨"A", "RB", 1, some 5⟩, ⟨"A", "WR", 1, some 5⟩, ⟨"B", "RB", 1, some 3⟩] ∧
      (∀ q ∈ possibleProjections 1 ["RB"]
        [⟨"A", "RB", 1, some 5⟩, ⟨"A", "WR", 1, some 5⟩, ⟨"B", "RB", 1, some 3⟩],
        pyKey q ≤ pyKey sel) ∧
      fillSlot 1 ["RB"]
        (0, [⟨"A", "RB", 1, some 5⟩, ⟨"A", "WR", 1, some 5⟩, ⟨"B", "RB", 1, some 3⟩]) =
        (0 + pyKey sel,
          [⟨"A", "RB", 1, some 5⟩, ⟨"A", "WR", 1, some 5⟩,
            ⟨"B", "RB", 1, some 3⟩].filter fun p =>
              p.player_id ≠ sel.player_id ∨ p.week ≠ 1) := by
  refine ⟨by decide, ?_⟩
  exact (C4_slot_step 1 ["RB"] 0
    [⟨"A", "RB", 1, some 5⟩, ⟨"A", "WR", 1, some 5⟩, ⟨"B", "RB", 1, some 3⟩]).2.2.1
    (by decide)

/-- C2 (amended): on the empty player set the scorer's filtered pool is
empty, no week is ever processed, and the final division is by zero:
the call raises `ZeroDivisionError` (modelled as `none`) instead of
returning 0. -/
theorem C2_empty_players_raises (table : List Projection) (comp : SlotConfig) :
    get_max_possible_score table comp [] = none := by
  have hf : (table.filter fun p => decide (p.player_id ∈ ([] : List String))) = [] := by
    simp
  simp [get_max_possible_score, hf, weeksOf, pySet]

/-- C2 counterexample: at a concrete one-record projection table the
scorer applied to the empty player set does not return 0 — it raises
`ZeroDivisionError` (the `none` of the embedding). -/
theorem C2_counterexample :
    get_max_possible_score [⟨"A", "RB", 1, some 5⟩] [("RB", 1)] [] = none ∧
      ¬ get_max_possible_score [⟨"A", "RB", 1, some 5⟩] [("RB", 1)] [] = some 0 := by
  constructor <;> decide

/-!
## Week locality of slot filling

Removing the records of a selected player only ever drops records of
the week being processed, so the score contributed by a week and the
surviving records of a week depend only on that week's records.
-/

theorem possible_restrict (w : Int) (fmt : List String) (pool : List Projection) :
    possibleProjections w fmt (pool.filter fun p => p.week = w) =
      possibleProjections w fmt pool := by
  unfold possibleProjections
  rw [List.filter_filter]
  refine List.filter_congr ?_
  intro p _
  by_cases h : p.week = w <;> simp [h]

theorem fillSlot_restrict (w : Int) (fmt : List String) (st : ℚ × List Projection) :
    fillSlot w fmt (st.1, st.2.filter fun p => p.week = w) =
      ((fillSlot w fmt st).1, (fillSlot w fmt st).2.filter fun p => p.week = w) := by
  rw [fillSlot_eq_slotSel, fillSlot_eq_slotSel]
  have hsel : slotSel w fmt (st.2.filter fun p => p.week = w) = slotSel w fmt st.2 := by
    unfold slotSel; rw [possible_restrict]
  rw [hsel]
  cases slotSel w fmt st.2 with
  | none => rfl
  | some sel =>
    simp only [Prod.mk.injEq, true_and]
    rw [List.filter_filter, List.filter_filter]
    exact List.filter_congr fun x _ => Bool.and_comm _ _

theorem fillSlot_other_week (w : Int) (fmt : List String) (st : ℚ × List Projection)
    (w2 : Int) (hw : w2 ≠ w) :
    (fillSlot w fmt st).2.filter (fun p => p.week = w2) =
      st.2.filter (fun p => p.week = w2) := by
  rw [fillSlot_eq_slotSel]
  cases slotSel w fmt st.2 with
  | none => rfl
  | some sel =>
    simp only
    rw [List.filter_filter]
    refine List.filter_congr ?_
    intro p _
    by_cases hpw : p.week = w2
    · simp only [hpw, decide_eq_true_eq]
      have : (decide (¬p.player_id = sel.player_id ∨ ¬w2 = w)) = true := by
        simp only [decide_eq_true_eq]
        exact Or.inr hw
      simp [this]
    · simp [hpw]

theorem fillQuantity_restrict (w : Int) (fmt : List String) (n : Nat) :
    ∀ st : ℚ × List Projection,
      fillQuantity w fmt n (st.1, st.2.filter fun p => p.week = w) =
        ((fillQuantity w fmt n st).1,
          (fillQuantity w fmt n st).2.filter fun p => p.week = w) := by
  induction n with
  | zero => intro st; rfl
  | succ n ih =>
    intro st
    show fillQuantity w fmt n (fillSlot w fmt (st.1, st.2.filter fun p => p.week = w)) = _
    rw [fillSlot_restrict]
    exact ih (fillSlot w fmt st)

theorem fillQuantity_other_week (w : Int) (fmt : List String) (n : Nat)
    (w2 : Int) (hw : w2 ≠ w) :
    ∀ st : ℚ × List Projection,
      (fillQuantity w fmt n st).2.filter (fun p => p.week = w2) =
        st.2.filter (fun p => p.week = w2) := by
  induction n with
  | zero => intro st; rfl
  | succ n ih =>
    intro st
    show (fillQuantity w fmt n (fillSlot w fmt st)).2.filter _ = _
    rw [ih (fillSlot w fmt st)]
    exact fillSlot_other_week w fmt st w2 hw

theorem fillWeek_restrict (comp : SlotConfig) (w : Int) :
    ∀ st : ℚ × List Projection,
      fillWeek comp w (st.1, st.2.filter fun p => p.week = w) =
        ((fillWeek comp w st).1, (fillWeek comp w st).2.filter fun p => p.week = w) := by
  induction comp with
  | nil => intro st; rfl
  | cons pq rest ih =>
    intro st
    show fillWeek rest w
        (fillQuantity w (position_map_get pq.1) pq.2 (st.1, st.2.filter fun p => p.week = w)) = _
    rw [fillQuantity_restrict]
    exact ih (fillQuantity w (position_map_get pq.1) pq.2 st)

theorem fillWeek_other_week (comp : SlotConfig) (w : Int) (w2 : Int) (hw : w2 ≠ w) :
    ∀ st : ℚ × List Projection,
      (fillWeek comp w st).2.filter (fun p => p.week = w2) =
        st.2.filter (fun p => p.week = w2) := by
  induction comp with
  | nil => intro st; rfl
  | cons pq rest ih =>
    intro st
    show (fillWeek rest w (fillQuantity w (position_map_get pq.1) pq.2 st)).2.filter _ = _
    rw [ih (fillQuantity w (position_map_get pq.1) pq.2 st)]
    exact fillQuantity_other_week w (position_map_get pq.1) pq.2 w2 hw st

theorem fillSlot_shift (w : Int) (fmt : List String) (st : ℚ × List Projection) :
    fillSlot w fmt st = (st.1 + (fillSlot w fmt (0, st.2)).1, (fillSlot w fmt (0, st.2)).2) := by
  rw [fillSlot_eq_slotSel, fillSlot_eq_slotSel]
  cases slotSel w fmt st.2 with
  | none => simp
  | some sel => simp

theorem fillQuantity_shift (w : Int) (fmt : List String) (n : Nat) :
    ∀ st : ℚ × List Projection,
      fillQuantity w fmt n st =
        (st.1 + (fillQuantity w fmt n (0, st.2)).1, (fillQuantity w fmt n (0, st.2)).2) := by
  induction n with
  | zero => intro st; simp [fillQuantity]
  | succ n ih =>
    intro st
    show fillQuantity w fmt n (fillSlot w fmt st) = _
    rw [ih (fillSlot w fmt st), fillSlot_shift w fmt st]
    have h0 : fillQuantity w fmt (n + 1) (0, st.2) = fillQuantity w fmt n (fillSlot w fmt (0, st.2)) := rfl
    rw [h0, ih (fillSlot w fmt (0, st.2))]
    simp [add_assoc]

theorem fillWeek_shift (comp : SlotConfig) (w : Int) :
    ∀ st : ℚ × List Projection,
      fillWeek comp w st =
        (st.1 + (fillWeek comp w (0, st.2)).1, (fillWeek comp w (0, st.2)).2) := by
  induction comp with
  | nil => intro st; simp [fillWeek]
  | cons pq rest ih =>
    intro st
    show fillWeek rest w (fillQuantity w (position_map_get pq.1) pq.2 st) = _
    rw [ih (fillQuantity w (position_map_get pq.1) pq.2 st),
      fillQuantity_shift w (position_map_get pq.1) pq.2 st]
    have h0 : fillWeek (pq :: rest) w (0, st.2) =
        fillWeek rest w (fillQuantity w (position_map_get pq.1) pq.2 (0, st.2)) := rfl
    rw [h0, ih (fillQuantity w (position_map_get pq.1) pq.2 (0, st.2))]
    simp [add_assoc]



theorem fillWeek_fst (comp : SlotConfig) (w : Int) (st : ℚ × List Projection) :
    (fillWeek comp w st).1 = st.1 + weekContribution comp w st.2 := by
  have h1 := fillWeek_restrict comp w st
  have h2 := fillWeek_shift comp w (st.1, st.2.filter fun p => p.week = w)
  rw [h1] at h2
  have h3 := congrArg Prod.fst h2
  unfold weekContribution
  simpa using h3

theorem fillWeek_snd_week (comp : SlotConfig) (w : Int) (st : ℚ × List Projection) :
    (fillWeek comp w st).2.filter (fun p => p.week = w) = weekLeftover comp w st.2 := by
  have h1 := fillWeek_restrict comp w st
  have h2 := fillWeek_shift comp w (st.1, st.2.filter fun p => p.week = w)
  rw [h1] at h2
  have h3 := congrArg Prod.snd h2
  unfold weekLeftover
  simpa using h3

theorem weekContribution_congr (comp : SlotConfig) (w : Int)
    (pool1 pool2 : List Projection)
    (h : pool1.filter (fun p => p.week = w) = pool2.filter (fun p => p.week = w)) :
    weekContribution comp w pool1 = weekContribution comp w pool2 := by
  unfold weekContribution; rw [h]

theorem weekLeftover_congr (comp : SlotConfig) (w : Int)
    (pool1 pool2 : List Projection)
    (h : pool1.filter (fun p => p.week = w) = pool2.filter (fun p => p.week = w)) :
    weekLeftover comp w pool1 = weekLeftover comp w pool2 := by
  unfold weekLeftover; rw [h]

theorem foldWeeks_decomp (comp : SlotConfig) :
    ∀ ws : List Int, ws.Nodup → ∀ (s : ℚ) (pool : List Projection),
      (ws.foldl (fun st w => fillWeek comp w st) (s, pool)).1 =
          s + (ws.map fun w => weekContribution comp w pool).sum
      ∧ (∀ w ∈ ws,
          (ws.foldl (fun st w => fillWeek comp w st) (s, pool)).2.filter
              (fun p => p.week = w) = weekLeftover comp w pool)
      ∧ (∀ w, w ∉ ws →
          (ws.foldl (fun st w => fillWeek comp w st) (s, pool)).2.filter
              (fun p => p.week = w) = pool.filter (fun p => p.week = w)) := by
  intro ws
  induction ws with
  | nil =>
    intro _ s pool
    exact ⟨by simp, by simp, fun w _ => rfl⟩
  | cons w rest ih =>
    intro hnd s pool
    obtain ⟨hw, hrest⟩ := List.nodup_cons.1 hnd
    have hfold :
        ((w :: rest).foldl (fun st w2 => fillWeek comp w2 st) (s, pool)) =
          rest.foldl (fun st w2 => fillWeek comp w2 st) (fillWeek comp w (s, pool)) := rfl
    have h1 : (fillWeek comp w (s, pool)).1 = s + weekContribution comp w pool :=
      fillWeek_fst comp w (s, pool)
    have h2 : (fillWeek comp w (s, pool)).2.filter (fun p => p.week = w) =
        weekLeftover comp w pool :=
      fillWeek_snd_week comp w (s, pool)
    have h3 : ∀ w2, w2 ≠ w →
        (fillWeek comp w (s, pool)).2.filter (fun p => p.week = w2) =
          pool.filter (fun p => p.week = w2) :=
      fun w2 hw2 => fillWeek_other_week comp w w2 hw2 (s, pool)
    obtain ⟨ih1, ih2, ih3⟩ :=
      ih hrest (fillWeek comp w (s, pool)).1 (fillWeek comp w (s, pool)).2
    rw [Prod.mk.eta] at ih1 ih2 ih3
    refine ⟨?_, ?_, ?_⟩
    · rw [hfold, ih1, h1]
      have hmap : (rest.map fun w2 => weekContribution comp w2 (fillWeek comp w (s, pool)).2) =
          rest.map fun w2 => weekContribution comp w2 pool := by
        refine List.map_congr_left ?_
        intro w2 hw2
        exact weekContribution_congr comp w2 _ _ (h3 w2 fun hc => hw (hc ▸ hw2))
      rw [hmap, List.map_cons, List.sum_cons, add_assoc]
    · intro w2 hw2
      rw [hfold]
      rcases List.mem_cons.1 hw2 with rfl | hmem
      · rw [ih3 w2 hw, h2]
      · rw [ih2 w2 hmem]
        exact weekLeftover_congr comp w2 _ _ (h3 w2 fun hc => hw (hc ▸ hmem))
    · intro w2 hw2
      rw [hfold]
      have hne : w2 ≠ w := fun hc => hw2 (hc ▸ List.mem_cons_self w rest)
      have hnr : w2 ∉ rest := fun hmem => hw2 (List.mem_cons_of_mem _ hmem)
      rw [ih3 w2 hnr, h3 w2 hne]



theorem get_eq_spec_score (table : List Projection) (comp : SlotConfig)
    (pids : List String) :
    get_max_possible_score table comp pids = spec_score table comp pids := by
  simp only [get_max_possible_score, spec_score]
  obtain ⟨h1, h2, h3⟩ :=
    foldWeeks_decomp comp (weeksOf (table.filter fun p => p.player_id ∈ pids))
      (weeksOf_nodup _) 0 (table.filter fun p => p.player_id ∈ pids)
  have hd :
      (weeksOf ((weeksOf (table.filter fun p => p.player_id ∈ pids)).foldl
          (fun st w => fillWeek comp w st)
          ((0 : ℚ), table.filter fun p => p.player_id ∈ pids)).2).length =
        ((weeksOf (table.filter fun p => p.player_id ∈ pids)).filter
          (fun w => ¬ weekLeftover comp w (table.filter fun p => p.player_id ∈ pids) = [])).length := by
    rw [weeksOf_length]
    have hfs :
        ((((weeksOf (table.filter fun p => p.player_id ∈ pids)).foldl
            (fun st w => fillWeek comp w st)
            ((0 : ℚ), table.filter fun p => p.player_id ∈ pids)).2).map (·.week)).toFinset =
          ((weeksOf (table.filter fun p => p.player_id ∈ pids)).filter
            (fun w => ¬ weekLeftover comp w (table.filter fun p => p.player_id ∈ pids) = [])).toFinset := by
      ext w
      simp only [List.mem_toFinset, List.mem_map, List.mem_filter, decide_eq_true_eq]
      constructor
      · rintro ⟨p, hp, hpw⟩
        by_cases hmem : w ∈ weeksOf (table.filter fun p => p.player_id ∈ pids)
        · refine ⟨hmem, ?_⟩
          intro hleft
          have hpfil : p ∈ (((weeksOf (table.filter fun p => p.player_id ∈ pids)).foldl
              (fun st w2 => fillWeek comp w2 st)
              ((0 : ℚ), table.filter fun p => p.player_id ∈ pids)).2).filter
                (fun q => q.week = w) := by
            rw [List.mem_filter]
            exact ⟨hp, by simp [hpw]⟩
          rw [h2 w hmem, hleft] at hpfil
          simp at hpfil
        · exfalso
          have hpfil : p ∈ (((weeksOf (table.filter fun p => p.player_id ∈ pids)).foldl
              (fun st w2 => fillWeek comp w2 st)
              ((0 : ℚ), table.filter fun p => p.player_id ∈ pids)).2).filter
                (fun q => q.week = w) := by
            rw [List.mem_filter]
            exact ⟨hp, by simp [hpw]⟩
          rw [h3 w hmem, List.mem_filter] at hpfil
          refine hmem ((weeksOf_mem _ w).2 ⟨p, hpfil.1, ?_⟩)
          simpa using hpfil.2
      · rintro ⟨hmem, hne⟩
        obtain ⟨p, hp⟩ := List.exists_mem_of_ne_nil _ hne
        rw [← h2 w hmem, List.mem_filter] at hp
        refine ⟨p, hp.1, ?_⟩
        simpa using hp.2
    rw [hfs, List.card_toFinset, List.Nodup.dedup ((weeksOf_nodup _).filter _)]
  rw [hd, h1, zero_add]

theorem position_map_get_RB : position_map_get "RB" = ["RB"] := rfl

/-- C3: for every player-id set the scorer equals the per-week
decomposition `spec_score`, whose denominator is the number of distinct
weeks remaining in the filtered record pool after all removals — and
not the number of distinct weeks present before slot filling: at the
concrete table, week 1 is fully consumed by slot assignment, the code
returns 12 (divisor 1) while dividing by the pre-filling week count
would return 6 (divisor 2). -/
theorem C3_divides_by_post_removal_weeks :
    (∀ (table : List Projection) (comp : SlotConfig) (pids : List String),
        get_max_possible_score table comp pids = spec_score table comp pids) ∧
    get_max_possible_score
        [⟨"A", "RB", 1, some 10⟩, ⟨"B", "RB", 2, some 2⟩, ⟨"D", "WR", 2, none⟩]
        [("RB", 1)] ["A", "B", "D"] = some 12 ∧
    spec_score_preDiv
        [⟨"A", "RB", 1, some 10⟩, ⟨"B", "RB", 2, some 2⟩, ⟨"D", "WR", 2, none⟩]
        [("RB", 1)] ["A", "B", "D"] = some 6 := by
  refine ⟨get_eq_spec_score, ?_, ?_⟩
  · simp [get_max_possible_score, fillWeek, fillQuantity, fillSlot, possibleProjections,
      position_map_get_RB, pyMaxBy, pyKey, weeksOf, pySet, String.reduceEq]
    all_goals norm_num
  · simp [spec_score_preDiv, weekContribution, fillWeek, fillQuantity, fillSlot,
      possibleProjections, position_map_get_RB, pyMaxBy, pyKey, weeksOf, pySet,
      String.reduceEq]
    all_goals norm_num

theorem fillSlot_allMissing (w : Int) (fmt : List String) (st : ℚ × List Projection)
    (h : ∀ p ∈ st.2, p.week = w → p.pts_ppr = none) : fillSlot w fmt st = st := by
  have hp : possibleProjections w fmt st.2 = [] := by
    rw [possibleProjections, List.filter_eq_nil_iff]
    intro p hpmem
    simp only [decide_eq_true_eq, not_and]
    intro hw _
    rw [h p hpmem hw]
    simp
  unfold fillSlot
  rw [hp]

theorem fillQuantity_allMissing (w : Int) (fmt : List String) (n : Nat)
    (st : ℚ × List Projection) (h : ∀ p ∈ st.2, p.week = w → p.pts_ppr = none) :
    fillQuantity w fmt n st = st := by
  induction n with
  | zero => rfl
  | succ n ih =>
    show fillQuantity w fmt n (fillSlot w fmt st) = st
    rw [fillSlot_allMissing w fmt st h, ih]

theorem fillWeek_allMissing (comp : SlotConfig) (w : Int) (st : ℚ × List Projection)
    (h : ∀ p ∈ st.2, p.week = w → p.pts_ppr = none) : fillWeek comp w st = st := by
  induction comp with
  | nil => rfl
  | cons pq rest ih =>
    show fillWeek rest w (fillQuantity w (position_map_get pq.1) pq.2 st) = st
    rw [fillQuantity_allMissing w (position_map_get pq.1) pq.2 st h, ih]

/-- C10: a week of the filtered pool all of whose records have missing
points contributes 0 to the summed total, loses no record to removals,
and still counts as one week in the averaging denominator: the scorer
returns the other weeks' totals divided by a week count that includes
this silent week. -/
theorem C10_missing_week_counts_in_denominator (table : List Projection)
    (comp : SlotConfig) (pids : List String) (w : Int)
    (h1 : (table.filter fun p => p.player_id ∈ pids).filter (fun p => p.week = w) ≠ [])
    (h2 : ∀ p ∈ (table.filter fun p => p.player_id ∈ pids), p.week = w → p.pts_ppr = none) :
    weekContribution comp w (table.filter fun p => p.player_id ∈ pids) = 0 ∧
    weekLeftover comp w (table.filter fun p => p.player_id ∈ pids) =
      (table.filter fun p => p.player_id ∈ pids).filter (fun p => p.week = w) ∧
    w ∈ (weeksOf (table.filter fun p => p.player_id ∈ pids)).filter
        (fun w2 => ¬ weekLeftover comp w2 (table.filter fun p => p.player_id ∈ pids) = []) ∧
    get_max_possible_score table comp pids =
      some (((weeksOf (table.filter fun p => p.player_id ∈ pids)).map
          (fun w2 => weekContribution comp w2 (table.filter fun p => p.player_id ∈ pids))).sum /
        (((weeksOf (table.filter fun p => p.player_id ∈ pids)).filter
          (fun w2 => ¬ weekLeftover comp w2 (table.filter fun p => p.player_id ∈ pids) = [])).length : ℚ)) := by
  have hrest : ∀ p ∈ (table.filter fun p => p.player_id ∈ pids).filter (fun p => p.week = w),
      p.week = w → p.pts_ppr = none := by
    intro p hp hw
    exact h2 p (List.mem_of_mem_filter hp) hw
  have hnoop :
      fillWeek comp w ((0 : ℚ),
          (table.filter fun p => p.player_id ∈ pids).filter (fun p => p.week = w)) =
        ((0 : ℚ), (table.filter fun p => p.player_id ∈ pids).filter (fun p => p.week = w)) :=
    fillWeek_allMissing comp w _ hrest
  have hcontrib : weekContribution comp w (table.filter fun p => p.player_id ∈ pids) = 0 := by
    unfold weekContribution
    rw [hnoop]
  have hleft : weekLeftover comp w (table.filter fun p => p.player_id ∈ pids) =
      (table.filter fun p => p.player_id ∈ pids).filter (fun p => p.week = w) := by
    unfold weekLeftover
    rw [hnoop]
  have hwmem : w ∈ weeksOf (table.filter fun p => p.player_id ∈ pids) := by
    obtain ⟨p, hp⟩ := List.exists_mem_of_ne_nil _ h1
    rw [List.mem_filter] at hp
    refine (weeksOf_mem _ w).2 ⟨p, hp.1, ?_⟩
    simpa using hp.2
  have hfmem : w ∈ (weeksOf (table.filter fun p => p.player_id ∈ pids)).filter
      (fun w2 => ¬ weekLeftover comp w2 (table.filter fun p => p.player_id ∈ pids) = []) := by
    rw [List.mem_filter]
    refine ⟨hwmem, ?_⟩
    simp only [decide_eq_true_eq]
    rw [hleft]
    exact h1
  have hdne : ((weeksOf (table.filter fun p => p.player_id ∈ pids)).filter
      (fun w2 => ¬ weekLeftover comp w2 (table.filter fun p => p.player_id ∈ pids) = [])).length ≠ 0 := by
    have := List.length_pos.2 (List.ne_nil_of_mem hfmem)
    omega
  refine ⟨hcontrib, hleft, hfmem, ?_⟩
  rw [get_eq_spec_score]
  simp only [spec_score]
  rw [if_neg hdne]



/-- Witness for `C10_missing_week_counts_in_denominator`: player B's
only record (week 2) has missing points; week 2 contributes 0 yet is
counted, while week 1 (fully consumed) is not. -/
theorem C10_missing_week_counts_in_denominator_witness :
    c10Filtered.filter (fun p => p.week = 2) ≠ [] ∧
    (∀ p ∈ c10Filtered, p.week = 2 → p.pts_ppr = none) ∧
    get_max_possible_score c10Table [("RB", 1)] ["A", "B"] =
      some (((weeksOf c10Filtered).map
          (fun w2 => weekContribution [("RB", 1)] w2 c10Filtered)).sum /
        (((weeksOf c10Filtered).filter
          (fun w2 => ¬ weekLeftover [("RB", 1)] w2 c10Filtered = [])).length : ℚ)) :=
  ⟨by decide, by decide,
    (C10_missing_week_counts_in_denominator c10Table [("RB", 1)] ["A", "B"] 2
      (by decide) (by decide)).2.2.2⟩

theorem fillSlot_nonneg (w : Int) (fmt : List String) (st : ℚ × List Projection)
    (hpool : ∀ p ∈ st.2, 0 ≤ pyKey p) (hs : 0 ≤ st.1) :
    0 ≤ (fillSlot w fmt st).1 ∧ ∀ p ∈ (fillSlot w fmt st).2, 0 ≤ pyKey p := by
  refine ⟨?_, fun p hp => hpool p (List.Sublist.mem hp (fillSlot_sublist w fmt st))⟩
  rw [fillSlot_eq_slotSel]
  cases hsel : slotSel w fmt st.2 with
  | none => exact hs
  | some sel =>
    have hmem := slotSel_mem_possible w fmt st.2 sel hsel
    rw [mem_possibleProjections] at hmem
    exact add_nonneg hs (hpool sel hmem.1)

theorem fillQuantity_nonneg (w : Int) (fmt : List String) (n : Nat) :
    ∀ st : ℚ × List Projection, (∀ p ∈ st.2, 0 ≤ pyKey p) → 0 ≤ st.1 →
      0 ≤ (fillQuantity w fmt n st).1 ∧ ∀ p ∈ (fillQuantity w fmt n st).2, 0 ≤ pyKey p := by
  induction n with
  | zero => intro st hpool hs; exact ⟨hs, hpool⟩
  | succ n ih =>
    intro st hpool hs
    obtain ⟨h1, h2⟩ := fillSlot_nonneg w fmt st hpool hs
    exact ih (fillSlot w fmt st) h2 h1

theorem fillWeek_nonneg (comp : SlotConfig) (w : Int) :
    ∀ st : ℚ × List Projection, (∀ p ∈ st.2, 0 ≤ pyKey p) → 0 ≤ st.1 →
      0 ≤ (fillWeek comp w st).1 ∧ ∀ p ∈ (fillWeek comp w st).2, 0 ≤ pyKey p := by
  induction comp with
  | nil => intro st hpool hs; exact ⟨hs, hpool⟩
  | cons pq rest ih =>
    intro st hpool hs
    obtain ⟨h1, h2⟩ := fillQuantity_nonneg w (position_map_get pq.1) pq.2 st hpool hs
    exact ih (fillQuantity w (position_map_get pq.1) pq.2 st) h2 h1

theorem foldWeeks_nonneg (comp : SlotConfig) (ws : List Int) :
    ∀ st : ℚ × List Projection, (∀ p ∈ st.2, 0 ≤ pyKey p) → 0 ≤ st.1 →
      0 ≤ (ws.foldl (fun st w => fillWeek comp w st) st).1 := by
  induction ws with
  | nil => intro st _ hs; exact hs
  | cons w rest ih =>
    intro st hpool hs
    obtain ⟨h1, h2⟩ := fillWeek_nonneg comp w st hpool hs
    exact ih (fillWeek comp w st) h2 h1

/-- C9 (amended): when every projection point of the table is
non-negative (`pyKey p = 0` for a missing value), every score the
scorer returns is non-negative, and the score can be exactly 0 when no
eligible player exists for any slot (player A's position matches no
slot at the concrete input).  Without that restriction the claim fails:
see the counterexample with a negative projection. -/
theorem C9_score_nonneg (table : List Projection) (comp : SlotConfig)
    (pids : List String) (h : ∀ p ∈ table, 0 ≤ pyKey p) :
    (∀ v, get_max_possible_score table comp pids = some v → 0 ≤ v) ∧
    get_max_possible_score [⟨"A", "K", 1, some 7⟩] [("QB", 1)] ["A"] = some 0 := by
  constructor
  · intro v hv
    simp only [get_max_possible_score] at hv
    split at hv
    · cases hv
    · have hfold :=
        foldWeeks_nonneg comp (weeksOf (table.filter fun p => p.player_id ∈ pids))
          ((0 : ℚ), table.filter fun p => p.player_id ∈ pids)
          (fun p hp => h p (List.mem_of_mem_filter hp)) le_rfl
      rw [← Option.some_inj.1 hv]
      exact div_nonneg hfold (Nat.cast_nonneg _)
  · simp [get_max_possible_score, fillWeek, fillQuantity, fillSlot, possibleProjections,
      position_map_get, pyMaxBy, pyKey, weeksOf, pySet, String.reduceEq]

/-- Witness for `C9_score_nonneg` at a concrete all-non-negative table. -/
theorem C9_score_nonneg_witness :
    (∀ p ∈ ([⟨"A", "RB", 1, some 5⟩, ⟨"B", "WR", 1, none⟩] : List Projection), 0 ≤ pyKey p) ∧
    ((∀ v, get_max_possible_score [⟨"A", "RB", 1, some 5⟩, ⟨"B", "WR", 1, none⟩]
        [("RB", 1)] ["A", "B"] = some v → 0 ≤ v) ∧
      get_max_possible_score [⟨"A", "K", 1, some 7⟩] [("QB", 1)] ["A"] = some 0) :=
  ⟨by decide,
    C9_score_nonneg [⟨"A", "RB", 1, some 5⟩, ⟨"B", "WR", 1, none⟩] [("RB", 1)] ["A", "B"]
      (by decide)⟩

/-- C9 counterexample: with a negative projection (allowed by the data
model, `points: float | missing`) the scorer returns a negative score:
player A's only record has −5 points, the returned average is −5. -/
theorem C9_counterexample :
    get_max_possible_score [⟨"A", "RB", 1, some (-5)⟩, ⟨"B", "WR", 1, none⟩]
        [("RB", 1)] ["A", "B"] = some (-5) ∧ ((-5 : ℚ) < 0) := by
  constructor
  · simp [get_max_possible_score, fillWeek, fillQuantity, fillSlot, possibleProjections,
      position_map_get_RB, pyMaxBy, pyKey, weeksOf, pySet, String.reduceEq]
  · norm_num

/-!
## Compositional view of the trade search

`_get_recommended_trades` accumulates into one list across three nested
loops; the lemmas below rewrite it as a concatenation of per-gives,
per-partner, per-receives generated fragments, which the claims about
membership and monotonicity are proved from.
-/


theorem genList_mem {α τ : Type} (aux : α → Option (List τ)) (l : List α) :
    ∀ r, genList aux l = some r →
      ∀ t, t ∈ r ↔ ∃ x ∈ l, ∃ g, aux x = some g ∧ t ∈ g := by
  induction l with
  | nil =>
    intro r hr t
    simp only [genList, Option.some.injEq] at hr
    simp [← hr]
  | cons x xs ih =>
    intro r hr t
    simp only [genList, Option.bind_eq_bind, Option.bind_eq_some, Option.pure_def,
      Option.some.injEq] at hr
    obtain ⟨g, hg, rest, hrest, hr⟩ := hr
    rw [← hr, List.mem_append, ih rest hrest t]
    constructor
    · rintro (ht | ⟨y, hy, g2, hg2, ht⟩)
      · exact ⟨x, List.mem_cons_self x xs, g, hg, ht⟩
      · exact ⟨y, List.mem_cons_of_mem x hy, g2, hg2, ht⟩
    · rintro ⟨y, hy, g2, hg2, ht⟩
      rcases List.mem_cons.1 hy with rfl | hy
      · rw [hg] at hg2
        exact Or.inl (Option.some_inj.1 hg2 ▸ ht)
      · exact Or.inr ⟨y, hy, g2, hg2, ht⟩

theorem genList_append {α τ : Type} (aux : α → Option (List τ)) (l1 l2 : List α) :
    genList aux (l1 ++ l2) =
      (genList aux l1).bind fun a => (genList aux l2).bind fun b => some (a ++ b) := by
  induction l1 with
  | nil =>
    cases h : genList aux l2 <;> simp [genList, h]
  | cons x xs ih =>
    show genList aux (x :: (xs ++ l2)) = _
    simp only [genList, ih]
    cases hx : aux x <;> simp
    cases h1 : genList aux xs <;> simp
    cases h2 : genList aux l2 <;> simp

theorem genList_sub {α τ : Type} (aux1 aux2 : α → Option (List τ)) (l : List α)
    (h : ∀ x ∈ l, ∀ r2, aux2 x = some r2 →
      ∃ r1, aux1 x = some r1 ∧ ∀ t ∈ r1, t ∈ r2) :
    ∀ R2, genList aux2 l = some R2 →
      ∃ R1, genList aux1 l = some R1 ∧ ∀ t ∈ R1, t ∈ R2 := by
  induction l with
  | nil => intro R2 hR2; exact ⟨[], rfl, by simp⟩
  | cons x xs ih =>
    intro R2 hR2
    simp only [genList, Option.bind_eq_bind, Option.bind_eq_some, Option.pure_def,
      Option.some.injEq] at hR2
    obtain ⟨g2, hg2, rest2, hrest2, hR2⟩ := hR2
    obtain ⟨g1, hg1, hgsub⟩ := h x (List.mem_cons_self x xs) g2 hg2
    obtain ⟨rest1, hrest1, hrsub⟩ :=
      ih (fun y hy => h y (List.mem_cons_of_mem x hy)) rest2 hrest2
    refine ⟨g1 ++ rest1, ?_, ?_⟩
    · simp only [genList, Option.bind_eq_bind, hg1, hrest1]
      rfl
    · intro t ht
      rw [← hR2]
      rcases List.mem_append.1 ht with ht | ht
      · exact List.mem_append.2 (Or.inl (hgsub t ht))
      · exact List.mem_append.2 (Or.inr (hrsub t ht))




theorem foldlM_map_shape {α τ : Type} (aux : α → Option (List τ)) (l : List α) :
    ∀ acc : List τ,
      l.foldlM (fun acc x => (aux x).map (acc ++ ·)) acc =
        (genList aux l).map (acc ++ ·) := by
  induction l with
  | nil => intro acc; simp [genList]
  | cons x xs ih =>
    intro acc
    cases hx : aux x with
    | none => simp [List.foldlM_cons, genList, hx]
    | some g =>
      cases hxs : genList aux xs <;>
        simp [List.foldlM_cons, genList, hx, hxs, ih, List.append_assoc]

theorem step3_eq (all : List Projection) (comp : SlotConfig) (U roster : List String)
    (b ob : ℚ) (ou : String) (g : List String) :
    (fun (acc : List AcceptedTrade) og => do
        let pu ← get_max_possible_score all comp (pyUnion (pyDiff U g) og)
        let po ← get_max_possible_score all comp (pyUnion (pyDiff roster og) g)
        if b < pu ∧ ob ≤ po then
          pure (acc ++ [⟨ou, g, og, pu, po⟩])
        else pure acc) =
      fun acc og => (tryTrade all comp U roster b ob ou g og).map (acc ++ ·) := by
  funext acc og
  simp only [tryTrade]
  cases hpu : get_max_possible_score all comp (pyUnion (pyDiff U g) og) with
  | none => simp
  | some pu =>
    cases hpo : get_max_possible_score all comp (pyUnion (pyDiff roster og) g) with
    | none => simp
    | some po =>
      by_cases hcond : b < pu ∧ ob ≤ po <;> simp [hcond]

theorem step2_eq (rows : List Row) (comp : SlotConfig) (mgs : Int) (uid : String)
    (b : ℚ) (g : List String) :
    (fun (acc : List AcceptedTrade) ou => do
        let ob ← get_max_possible_score (projectionsOfRows rows) comp (rosterOf rows ou)
        (allGroups (rosterOf rows ou) mgs).foldlM (fun acc og => do
            let pu ← get_max_possible_score (projectionsOfRows rows) comp
              (pyUnion (pyDiff (userPlayersOf rows uid) g) og)
            let po ← get_max_possible_score (projectionsOfRows rows) comp
              (pyUnion (pyDiff (rosterOf rows ou) og) g)
            if b < pu ∧ ob ≤ po then
              pure (acc ++ [⟨ou, g, og, pu, po⟩])
            else pure acc) acc) =
      fun acc ou => (perOther rows comp mgs uid b g ou).map (acc ++ ·) := by
  funext acc ou
  cases hob : get_max_possible_score (projectionsOfRows rows) comp (rosterOf rows ou) with
  | none => simp [perOther, hob]
  | some ob =>
    show (allGroups (rosterOf rows ou) mgs).foldlM (fun acc og => do
        let pu ← get_max_possible_score (projectionsOfRows rows) comp
          (pyUnion (pyDiff (userPlayersOf rows uid) g) og)
        let po ← get_max_possible_score (projectionsOfRows rows) comp
          (pyUnion (pyDiff (rosterOf rows ou) og) g)
        if b < pu ∧ ob ≤ po then
          pure (acc ++ [⟨ou, g, og, pu, po⟩])
        else pure acc) acc =
      (perOther rows comp mgs uid b g ou).map (acc ++ ·)
    rw [step3_eq (projectionsOfRows rows) comp (userPlayersOf rows uid) (rosterOf rows ou)
      b ob ou g, foldlM_map_shape]
    simp [perOther, hob]

theorem step1_eq (rows : List Row) (comp : SlotConfig) (mgs : Int) (uid : String)
    (b : ℚ) :
    (fun (acc : List AcceptedTrade) g =>
        (otherUsersOf rows uid).foldlM (fun acc ou => do
            let ob ← get_max_possible_score (projectionsOfRows rows) comp (rosterOf rows ou)
            (allGroups (rosterOf rows ou) mgs).foldlM (fun acc og => do
                let pu ← get_max_possible_score (projectionsOfRows rows) comp
                  (pyUnion (pyDiff (userPlayersOf rows uid) g) og)
                let po ← get_max_possible_score (projectionsOfRows rows) comp
                  (pyUnion (pyDiff (rosterOf rows ou) og) g)
                if b < pu ∧ ob ≤ po then
                  pure (acc ++ [⟨ou, g, og, pu, po⟩])
                else pure acc) acc) acc) =
      fun acc g => (perGroup rows comp mgs uid b g).map (acc ++ ·) := by
  funext acc g
  rw [step2_eq rows comp mgs uid b g, foldlM_map_shape]
  rfl

/-- `_get_recommended_trades` as the concatenation of the fragments
generated per gives-group, per other user, per receives-group, in
discovery order. -/
theorem grt_eq (rows : List Row) (comp : SlotConfig) (mgs : Int) (uid : String) :
    _get_recommended_trades rows comp mgs uid =
      (get_max_possible_score (projectionsOfRows rows) comp (userPlayersOf rows uid)).bind
        fun b =>
          genList (perGroup rows comp mgs uid b) (allGroups (userPlayersOf rows uid) mgs) := by
  simp only [_get_recommended_trades]
  cases hb : get_max_possible_score (projectionsOfRows rows) comp (userPlayersOf rows uid) with
  | none => rfl
  | some b =>
    show (allGroups (userPlayersOf rows uid) mgs).foldlM (fun acc g =>
        (otherUsersOf rows uid).foldlM (fun acc ou => do
            let ob ← get_max_possible_score (projectionsOfRows rows) comp (rosterOf rows ou)
            (allGroups (rosterOf rows ou) mgs).foldlM (fun acc og => do
                let pu ← get_max_possible_score (projectionsOfRows rows) comp
                  (pyUnion (pyDiff (userPlayersOf rows uid) g) og)
                let po ← get_max_possible_score (projectionsOfRows rows) comp
                  (pyUnion (pyDiff (rosterOf rows ou) og) g)
                if b < pu ∧ ob ≤ po then
                  pure (acc ++ [⟨ou, g, og, pu, po⟩])
                else pure acc) acc) acc) [] =
      genList (perGroup rows comp mgs uid b) (allGroups (userPlayersOf rows uid) mgs)
    rw [step1_eq rows comp mgs uid b, foldlM_map_shape]
    cases hg : genList (perGroup rows comp mgs uid b)
        (allGroups (userPlayersOf rows uid) mgs) <;> simp

theorem tryTrade_mem (all : List Projection) (comp : SlotConfig) (U roster : List String)
    (b ob : ℚ) (ou : String) (g og : List String) (r : List AcceptedTrade)
    (hr : tryTrade all comp U roster b ob ou g og = some r)
    (t : AcceptedTrade) (ht : t ∈ r) :
    ∃ pu po, get_max_possible_score all comp (pyUnion (pyDiff U g) og) = some pu ∧
      get_max_possible_score all comp (pyUnion (pyDiff roster og) g) = some po ∧
      b < pu ∧ ob ≤ po ∧ t = ⟨ou, g, og, pu, po⟩ := by
  unfold tryTrade at hr
  cases hpu : get_max_possible_score all comp (pyUnion (pyDiff U g) og) with
  | none => rw [hpu] at hr; cases hr
  | some pu =>
    rw [hpu] at hr
    cases hpo : get_max_possible_score all comp (pyUnion (pyDiff roster og) g) with
    | none => rw [hpo] at hr; cases hr
    | some po =>
      rw [hpo] at hr
      simp only [Option.bind_eq_bind, Option.some_bind, Option.pure_def,
        Option.some.injEq] at hr
      by_cases hcond : b < pu ∧ ob ≤ po
      · rw [if_pos hcond] at hr
        rw [← hr] at ht
        simp only [List.mem_singleton] at ht
        exact ⟨pu, po, rfl, rfl, hcond.1, hcond.2, ht⟩
      · rw [if_neg hcond] at hr
        rw [← hr] at ht
        cases ht

theorem grt_mem (rows : List Row) (comp : SlotConfig) (mgs : Int) (uid : String)
    (l : List AcceptedTrade)
    (hl : _get_recommended_trades rows comp mgs uid = some l)
    (t : AcceptedTrade) (ht : t ∈ l) :
    ∃ b, get_max_possible_score (projectionsOfRows rows) comp (userPlayersOf rows uid) =
        some b ∧
    ∃ g, g ∈ allGroups (userPlayersOf rows uid) mgs ∧
    ∃ ou, ou ∈ otherUsersOf rows uid ∧
    ∃ ob, get_max_possible_score (projectionsOfRows rows) comp (rosterOf rows ou) = some ob ∧
    ∃ og, og ∈ allGroups (rosterOf rows ou) mgs ∧
    ∃ pu po,
      get_max_possible_score (projectionsOfRows rows) comp
        (pyUnion (pyDiff (userPlayersOf rows uid) g) og) = some pu ∧
      get_max_possible_score (projectionsOfRows rows) comp
        (pyUnion (pyDiff (rosterOf rows ou) og) g) = some po ∧
      b < pu ∧ ob ≤ po ∧ t = ⟨ou, g, og, pu, po⟩ := by
  rw [grt_eq] at hl
  cases hb : get_max_possible_score (projectionsOfRows rows) comp (userPlayersOf rows uid) with
  | none => rw [hb] at hl; cases hl
  | some b =>
    rw [hb] at hl
    simp only [Option.some_bind] at hl
    obtain ⟨g, hgmem, r1, hr1, ht1⟩ := (genList_mem _ _ l hl t).1 ht
    unfold perGroup at hr1
    obtain ⟨ou, houmem, r2, hr2, ht2⟩ := (genList_mem _ _ r1 hr1 t).1 ht1
    unfold perOther at hr2
    cases hob : get_max_possible_score (projectionsOfRows rows) comp (rosterOf rows ou) with
    | none => rw [hob] at hr2; cases hr2
    | some ob =>
      rw [hob] at hr2
      simp only [Option.bind_eq_bind, Option.some_bind] at hr2
      obtain ⟨og, hogmem, r3, hr3, ht3⟩ := (genList_mem _ _ r2 hr2 t).1 ht2
      obtain ⟨pu, po, hpu, hpo, h1, h2, heq⟩ :=
        tryTrade_mem (projectionsOfRows rows) comp (userPlayersOf rows uid)
          (rosterOf rows ou) b ob ou g og r3 hr3 t ht3
      exact ⟨b, rfl, g, hgmem, ou, houmem, ob, hob, og, hogmem, pu, po, hpu, hpo, h1, h2, heq⟩

/-- C1: every trade in a list returned by `_get_recommended_trades`
satisfies the acceptance criterion when the four scores are recomputed
from the trade's own fields: the user's post-trade roster scores
strictly above the user's base score and the partner's post-trade
roster scores at least the partner's base score; hence no trade
violating either inequality is ever in the returned list. -/
theorem C1_returned_trades_satisfy_criterion (rows : List Row) (comp : SlotConfig)
    (mgs : Int) (uid : String) (l : List AcceptedTrade)
    (hl : _get_recommended_trades rows comp mgs uid = some l)
    (t : AcceptedTrade) (ht : t ∈ l) :
    ∃ b ob,
      get_max_possible_score (projectionsOfRows rows) comp (userPlayersOf rows uid) =
        some b ∧
      get_max_possible_score (projectionsOfRows rows) comp (rosterOf rows t.With) =
        some ob ∧
      get_max_possible_score (projectionsOfRows rows) comp
        (pyUnion (pyDiff (userPlayersOf rows uid) t.Gives) t.Receives) =
        some t.userProjection ∧
      get_max_possible_score (projectionsOfRows rows) comp
        (pyUnion (pyDiff (rosterOf rows t.With) t.Receives) t.Gives) =
        some t.otherProjection ∧
      b < t.userProjection ∧ ob ≤ t.otherProjection := by
  obtain ⟨b, hb, g, -, ou, -, ob, hob, og, -, pu, po, hpu, hpo, h1, h2, heq⟩ :=
    grt_mem rows comp mgs uid l hl t ht
  subst heq
  exact ⟨b, ob, hb, hob, hpu, hpo, h1, h2⟩


/-- Witness for `C1_returned_trades_satisfy_criterion` at `c1Rows`:
the single returned trade's recomputed scores satisfy both
inequalities. -/
theorem C1_returned_trades_satisfy_criterion_witness :
    _get_recommended_trades c1Rows [("RB", 1)] 1 "u" =
        some [⟨"p", ["A"], ["C"], 4, 5 / 2⟩] ∧
    ∃ b ob,
      get_max_possible_score (projectionsOfRows c1Rows) [("RB", 1)]
          (userPlayersOf c1Rows "u") = some b ∧
      get_max_possible_score (projectionsOfRows c1Rows) [("RB", 1)]
          (rosterOf c1Rows "p") = some ob ∧
      get_max_possible_score (projectionsOfRows c1Rows) [("RB", 1)]
          (pyUnion (pyDiff (userPlayersOf c1Rows "u") ["A"]) ["C"]) = some 4 ∧
      get_max_possible_score (projectionsOfRows c1Rows) [("RB", 1)]
          (pyUnion (pyDiff (rosterOf c1Rows "p") ["C"]) ["A"]) = some (5 / 2) ∧
      b < 4 ∧ ob ≤ 5 / 2 := by
  have hres : _get_recommended_trades c1Rows [("RB", 1)] 1 "u" =
      some [⟨"p", ["A"], ["C"], 4, 5 / 2⟩] := by
    repeat first
      | simp [_get_recommended_trades, c1Rows, projectionsOfRows, userPlayersOf,
          otherUsersOf, rosterOf, insertAsc, sortAsc, pySet, combinations, allGroups,
          pyDiff, pyUnion, List.foldlM, get_max_possible_score, fillWeek, fillQuantity,
          fillSlot, possibleProjections, position_map_get, pyMaxBy, pyKey, weeksOf,
          String.reduceEq]
      | norm_num
  refine ⟨hres, ?_⟩
  exact C1_returned_trades_satisfy_criterion c1Rows [("RB", 1)] 1 "u"
    [⟨"p", ["A"], ["C"], 4, 5 / 2⟩] hres ⟨"p", ["A"], ["C"], 4, 5 / 2⟩ (by simp)


/-- C5 counterexample: with `max_group_size = 0` (a non-positive value
the spec says must be rejected before the search starts), the search
does not fail: it computes the user's base score and returns the empty
list as a normal value. -/
theorem C5_counterexample :
    _get_recommended_trades soloRows [("RB", 1)] 0 "u" = some [] ∧
    ¬ _get_recommended_trades soloRows [("RB", 1)] 0 "u" = none := by
  have h : _get_recommended_trades soloRows [("RB", 1)] 0 "u" = some [] := by
    repeat first
      | simp [_get_recommended_trades, soloRows, projectionsOfRows, userPlayersOf,
          otherUsersOf, rosterOf, insertAsc, sortAsc, pySet, combinations, allGroups,
          pyDiff, pyUnion, List.foldlM, get_max_possible_score, fillWeek, fillQuantity,
          fillSlot, possibleProjections, position_map_get, pyMaxBy, pyKey, weeksOf,
          String.reduceEq]
      | norm_num
  exact ⟨h, by rw [h]; exact fun hc => Option.noConfusion hc⟩

/-- C5 (amended): the search performs no input validation.  For any
non-positive `max_group_size` the gives-group enumeration is empty and
the search returns the empty list normally (after computing the user's
base score — a partial computation the spec says must not happen); an
empty slot configuration is likewise not rejected, every roster scores
0 and the search returns the empty list normally. -/
theorem C5_no_validation (rows : List Row) (comp : SlotConfig) (mgs : Int)
    (uid : String) (b : ℚ) (hmgs : mgs ≤ 0)
    (hb : get_max_possible_score (projectionsOfRows rows) comp (userPlayersOf rows uid) =
      some b) :
    _get_recommended_trades rows comp mgs uid = some [] ∧
    _get_recommended_trades soloRows [] 1 "u" = some [] := by
  constructor
  · rw [grt_eq, hb]
    simp only [Option.some_bind]
    have hg : allGroups (userPlayersOf rows uid) mgs = [] := by
      unfold allGroups
      rw [Int.toNat_of_nonpos hmgs]
      rfl
    rw [hg]
    rfl
  · repeat first
      | simp [_get_recommended_trades, soloRows, projectionsOfRows, userPlayersOf,
          otherUsersOf, rosterOf, insertAsc, sortAsc, pySet, combinations, allGroups,
          pyDiff, pyUnion, List.foldlM, get_max_possible_score, fillWeek, fillQuantity,
          fillSlot, possibleProjections, position_map_get, pyMaxBy, pyKey, weeksOf,
          String.reduceEq]
      | norm_num

/-- Witness for `C5_no_validation` at `soloRows` with
`max_group_size = 0`. -/
theorem C5_no_validation_witness :
    (0 : Int) ≤ 0 ∧
    get_max_possible_score (projectionsOfRows soloRows) [("RB", 1)]
      (userPlayersOf soloRows "u") = some 0 ∧
    (_get_recommended_trades soloRows [("RB", 1)] 0 "u" = some [] ∧
      _get_recommended_trades soloRows [] 1 "u" = some []) := by
  have hb : get_max_possible_score (projectionsOfRows soloRows) [("RB", 1)]
      (userPlayersOf soloRows "u") = some 0 := by
    repeat first
      | simp [soloRows, projectionsOfRows, userPlayersOf, pySet, get_max_possible_score,
          fillWeek, fillQuantity, fillSlot, possibleProjections, position_map_get,
          pyMaxBy, pyKey, weeksOf, String.reduceEq]
      | norm_num
  exact ⟨le_refl 0, hb, C5_no_validation soloRows [("RB", 1)] 0 "u" 0 (le_refl 0) hb⟩

/-- C6 (the code bug at the failing input): with no other user in the
league no candidate trade exists, `_get_recommended_trades` returns the
empty list — and the entry point `get_recommended_trades`, instead of
returning that empty result, raises `KeyError` when it reads the
`"Gives"` column of the empty data frame (`none` in the embedding),
making the caller's own empty-result handling unreachable. -/
theorem C6_empty_result_raises :
    _get_recommended_trades soloRows [("RB", 1)] 1 "u" = some [] ∧
    get_recommended_trades soloRows [("RB", 1)] "u" 1 none none = none := by
  have h : _get_recommended_trades soloRows [("RB", 1)] 1 "u" = some [] := by
    repeat first
      | simp [_get_recommended_trades, soloRows, projectionsOfRows, userPlayersOf,
          otherUsersOf, rosterOf, insertAsc, sortAsc, pySet, combinations, allGroups,
          pyDiff, pyUnion, List.foldlM, get_max_possible_score, fillWeek, fillQuantity,
          fillSlot, possibleProjections, position_map_get, pyMaxBy, pyKey, weeksOf,
          String.reduceEq]
      | norm_num
  refine ⟨h, ?_⟩
  simp only [get_recommended_trades, h, Option.some_bind]
  rfl

theorem allGroups_two (players : List String) :
    allGroups players 2 = allGroups players 1 ++ combinations 2 players := by
  simp [allGroups, List.range_succ]

theorem perOther_mono (rows : List Row) (comp : SlotConfig) (uid : String) (b : ℚ)
    (g : List String) (ou : String) :
    ∀ r2, perOther rows comp 2 uid b g ou = some r2 →
      ∃ r1, perOther rows comp 1 uid b g ou = some r1 ∧ ∀ t ∈ r1, t ∈ r2 := by
  intro r2 h2
  unfold perOther at h2 ⊢
  cases hob : get_max_possible_score (projectionsOfRows rows) comp (rosterOf rows ou) with
  | none => rw [hob] at h2; cases h2
  | some ob =>
    rw [hob] at h2
    simp only [Option.bind_eq_bind, Option.some_bind] at h2 ⊢
    rw [allGroups_two, genList_append] at h2
    rcases ha : genList
        (tryTrade (projectionsOfRows rows) comp (userPlayersOf rows uid)
          (rosterOf rows ou) b ob ou g)
        (allGroups (rosterOf rows ou) 1) with - | r1
    · rw [ha] at h2; cases h2
    · rw [ha] at h2
      simp only [Option.some_bind] at h2
      rcases hrest : genList
          (tryTrade (projectionsOfRows rows) comp (userPlayersOf rows uid)
            (rosterOf rows ou) b ob ou g)
          (combinations 2 (rosterOf rows ou)) with - | rrest
      · rw [hrest] at h2; cases h2
      · rw [hrest] at h2
        simp only [Option.some_bind, Option.some.injEq] at h2
        refine ⟨r1, rfl, fun t ht => ?_⟩
        rw [← h2]
        exact List.mem_append.2 (Or.inl ht)

/-- C8 (amended): provided the size-2 search completes without error,
it returns a superset: every trade accepted with `max_group_size = 1`
also appears in the result for `max_group_size = 2`, since base scores
are unchanged and every size-1 combination is still enumerated.  (The
unamended claim fails because a size-2 proposed roster can make the
scorer divide by zero, aborting the whole size-2 search: see the
counterexample.) -/
theorem C8_size1_subset_of_size2 (rows : List Row) (comp : SlotConfig) (uid : String)
    (l2 : List AcceptedTrade)
    (h2 : _get_recommended_trades rows comp 2 uid = some l2) :
    ∃ l1, _get_recommended_trades rows comp 1 uid = some l1 ∧ ∀ t ∈ l1, t ∈ l2 := by
  rw [grt_eq] at h2 ⊢
  cases hb : get_max_possible_score (projectionsOfRows rows) comp (userPlayersOf rows uid) with
  | none => rw [hb] at h2; cases h2
  | some b =>
    rw [hb] at h2
    simp only [Option.some_bind] at h2 ⊢
    rw [allGroups_two, genList_append] at h2
    rcases ha : genList (perGroup rows comp 2 uid b)
        (allGroups (userPlayersOf rows uid) 1) with - | r2a
    · rw [ha] at h2; cases h2
    · rw [ha] at h2
      simp only [Option.some_bind] at h2
      rcases hb2 : genList (perGroup rows comp 2 uid b)
          (combinations 2 (userPlayersOf rows uid)) with - | r2b
      · rw [hb2] at h2; cases h2
      · rw [hb2] at h2
        simp only [Option.some_bind, Option.some.injEq] at h2
        have hmono : ∀ g ∈ allGroups (userPlayersOf rows uid) 1, ∀ rg2,
            perGroup rows comp 2 uid b g = some rg2 →
            ∃ rg1, perGroup rows comp 1 uid b g = some rg1 ∧ ∀ t ∈ rg1, t ∈ rg2 := by
          intro g _ rg2 hg2
          unfold perGroup at hg2 ⊢
          exact genList_sub _ _ _ (fun ou _ => perOther_mono rows comp uid b g ou) rg2 hg2
        obtain ⟨l1, hl1, hsub⟩ := genList_sub _ _ _ hmono r2a ha
        refine ⟨l1, hl1, fun t ht => ?_⟩
        rw [← h2]
        exact List.mem_append.2 (Or.inl (hsub t ht))



set_option maxHeartbeats 1000000 in
/-- C8 counterexample: at `exRows` the size-1 search returns two
accepted trades, but the size-2 search returns no result at all — a
`ZeroDivisionError` (the `none` of the embedding) escapes while
scoring the proposed roster {Z} — so the size-1 accepted trades are
not contained in any size-2 result. -/
theorem C8_counterexample :
    _get_recommended_trades exRows [("RB", 1)] 1 "u" =
      some [⟨"p", ["A"], ["W"], 2, 5 / 2⟩, ⟨"p", ["B"], ["W"], 2, 5 / 2⟩] ∧
    _get_recommended_trades exRows [("RB", 1)] 2 "u" = none := by
  constructor
  · repeat first
      | simp [_get_recommended_trades, exRows, projectionsOfRows, userPlayersOf,
          otherUsersOf, rosterOf, insertAsc, sortAsc, pySet, combinations, allGroups,
          pyDiff, pyUnion, List.foldlM, get_max_possible_score, fillWeek, fillQuantity,
          fillSlot, possibleProjections, position_map_get, pyMaxBy, pyKey, weeksOf,
          String.reduceEq]
      | norm_num
  · repeat first
      | simp [_get_recommended_trades, exRows, projectionsOfRows, userPlayersOf,
          otherUsersOf, rosterOf, insertAsc, sortAsc, pySet, combinations, allGroups,
          pyDiff, pyUnion, List.foldlM, get_max_possible_score, fillWeek, fillQuantity,
          fillSlot, possibleProjections, position_map_get, pyMaxBy, pyKey, weeksOf,
          String.reduceEq]
      | norm_num

set_option maxHeartbeats 4000000 in
/-- Witness for `C8_size1_subset_of_size2` at `safeRows`: the size-2
search returns four trades, among them both size-1 trades. -/
theorem C8_size1_subset_of_size2_witness :
    _get_recommended_trades safeRows [("RB", 1)] 2 "u" =
      some [⟨"p", ["A"], ["W"], 2, 5 / 2⟩, ⟨"p", ["A"], ["Z", "W"], 5 / 2, 3⟩,
        ⟨"p", ["B"], ["W"], 2, 5 / 2⟩, ⟨"p", ["A", "B"], ["W"], 4, 5 / 2⟩] ∧
    ∃ l1, _get_recommended_trades safeRows [("RB", 1)] 1 "u" = some l1 ∧
      ∀ t ∈ l1, t ∈
        [(⟨"p", ["A"], ["W"], 2, 5 / 2⟩ : AcceptedTrade),
          ⟨"p", ["A"], ["Z", "W"], 5 / 2, 3⟩,
          ⟨"p", ["B"], ["W"], 2, 5 / 2⟩, ⟨"p", ["A", "B"], ["W"], 4, 5 / 2⟩] := by
  have h2 : _get_recommended_trades safeRows [("RB", 1)] 2 "u" =
      some [⟨"p", ["A"], ["W"], 2, 5 / 2⟩, ⟨"p", ["A"], ["Z", "W"], 5 / 2, 3⟩,
        ⟨"p", ["B"], ["W"], 2, 5 / 2⟩, ⟨"p", ["A", "B"], ["W"], 4, 5 / 2⟩] := by
    repeat first
      | simp [_get_recommended_trades, safeRows, exRows, projectionsOfRows, userPlayersOf,
          otherUsersOf, rosterOf, insertAsc, sortAsc, pySet, combinations, allGroups,
          pyDiff, pyUnion, List.foldlM, get_max_possible_score, fillWeek, fillQuantity,
          fillSlot, possibleProjections, position_map_get, pyMaxBy, pyKey, weeksOf,
          String.reduceEq]
      | norm_num
  exact ⟨h2, C8_size1_subset_of_size2 safeRows [("RB", 1)] "u" _ h2⟩
